import Mathlib

/-!
A verification development for the Streamlet consensus reference
implementation (C++ sources under `src/cpp/src/consensus/`).

The C++ code is shallowly embedded: each class becomes a structure, each
member function a Lean function on that structure, and the mutation of a
node becomes explicit state passing.  C++ `int` arithmetic is modelled by
`Int` with truncating division (`Int.tdiv`) and truncating remainder
(`Int.tmod`), matching C++11 semantics; no value in this program ever
approaches the 32-bit overflow boundary, so no wrap-around is modelled.
`std::map`/`std::set` members become function-valued fields; `std::vector`
members become lists.

The block hash in the source is `std::hex` of `std::hash<std::string>` of
a content string assembled from (epoch, parent hash, transactions,
proposer, time_t timestamp).  `std::hash` is implementation defined; the
specification's data model postulates that hash equality identifies
blocks ("two blocks with identical hash are considered the same block"),
i.e. the digest is treated as injective.  We therefore model the digest
as the content string itself: it is deterministic, non-empty, and
injective on the assembled content, which is exactly the interface the
rest of the program relies on.  The creation timestamp (the result of
`std::chrono::system_clock::now()` truncated to seconds by `to_time_t`)
is an environment input and is passed explicitly.
-/

namespace Streamlet

/-- One block of the chain, mirroring `class Block` (`block.cpp`).
`timestamp` is the `time_t` (seconds) value hashed into the content. -/
structure Block where
  epoch : Int
  parentHash : String
  transactions : List String
  proposerId : Int
  timestamp : Int
  hash : String
  deriving DecidableEq, Repr

/-- The content string assembled by `Block::calculateHash`:
`oss << epoch << ':' << parent << ':'; for tx: oss << tx << '|';
oss << ':' << proposer << ':' << t`.  We model the digest of this string
as the string itself (see the file header). -/
def calculateHash (epoch : Int) (parentHash : String)
    (transactions : List String) (proposerId : Int) (t : Int) : String :=
  toString epoch ++ ":" ++ parentHash ++ ":"
    ++ transactions.foldl (fun acc tx => acc ++ tx ++ "|") ""
    ++ ":" ++ toString proposerId ++ ":" ++ toString t

/-- The `Block::Block` constructor: stores its arguments, records the
creation time `t`, and derives `hash` via `calculateHash`. -/
def Block.create (epoch : Int) (parentHash : String)
    (transactions : List String) (proposerId : Int) (t : Int) : Block :=
  { epoch := epoch
    parentHash := parentHash
    transactions := transactions
    proposerId := proposerId
    timestamp := t
    hash := calculateHash epoch parentHash transactions proposerId t }

/-- `Block::isValid`: non-empty hash, non-negative epoch, non-negative
proposer id. -/
def Block.isValid (b : Block) : Bool :=
  !(b.hash == "") && decide (0 ≤ b.epoch) && decide (0 ≤ b.proposerId)

/-- The genesis block built by `StreamletNode::createGenesisBlock`:
epoch 0, parent `"GENESIS"`, one placeholder transaction, proposer −1,
created at time `t`. -/
def genesisBlock (t : Int) : Block :=
  Block.create 0 "GENESIS" ["genesis"] (-1) t

/-- `std::set<int>::insert`: add `id` to the voter set unless already
present.  Sets of voter ids are modelled as duplicate-free lists; only
membership and size are ever consumed. -/
def voteInsert (id : Int) (l : List Int) : List Int :=
  if id ∈ l then l else l ++ [id]

/-- Per-replica state, mirroring the private members of
`class StreamletNode` (`streamlet_node.cpp`). -/
structure StreamletNode where
  nodeId : Int
  nNodes : Int
  /-- `blockchain_` : adoption-ordered local chain. -/
  blockchain : List Block
  /-- `block_by_hash_` : hash-indexed registry. -/
  blockByHash : String → Option Block
  /-- `votes_by_epoch_[epoch][hash]` : voter-id set per (epoch, hash). -/
  votes : Int → String → List Int
  /-- `notarized_blocks_` : membership predicate of the notarized set. -/
  notarized : String → Bool
  /-- `finalized_blocks_` : append-only finalized sequence. -/
  finalized : List Block

/-- The `StreamletNode` constructor plus `createGenesisBlock`: the fresh
replica adopts its genesis block (built at time `t0`), registers it and
marks it notarized unconditionally. -/
def nodeInit (nodeId nNodes : Int) (t0 : Int) : StreamletNode :=
  let g := genesisBlock t0
  { nodeId := nodeId
    nNodes := nNodes
    blockchain := [g]
    blockByHash := fun h => if h == g.hash then some g else none
    votes := fun _ _ => []
    notarized := fun h => h == g.hash
    finalized := [] }

/-- `StreamletNode::getEpochLeader`: C++ `epoch % n_nodes_`, i.e.
truncating remainder. -/
def StreamletNode.getEpochLeader (s : StreamletNode) (epoch : Int) : Int :=
  Int.tmod epoch s.nNodes

/-- `StreamletNode::findLongestNotarizedChain`: the last element of the
adoption-ordered chain (or none when the chain is empty). -/
def StreamletNode.findLongestNotarizedChain (s : StreamletNode) : Option Block :=
  s.blockchain.getLast?

/-- `StreamletNode::validateBlock` for a present (non-null) block:
`isValid` and the declared proposer matches the embedded one. -/
def StreamletNode.validateBlock (_s : StreamletNode) (b : Block)
    (proposerId : Int) : Bool :=
  b.isValid && decide (proposerId = b.proposerId)

/-- `StreamletNode::notarizeBlock`: insert the hash into the notarized
set. -/
def StreamletNode.notarizeBlock (s : StreamletNode) (blockHash : String) :
    StreamletNode :=
  { s with notarized := fun h => h == blockHash || s.notarized h }

/-- `StreamletNode::checkFinalization`: if the chain has at least two
blocks and the last two are both notarized, append the second-to-last to
the finalized sequence. -/
def StreamletNode.checkFinalization (s : StreamletNode) : StreamletNode :=
  if s.blockchain.length < 2 then s
  else
    match s.blockchain[s.blockchain.length - 1]?,
          s.blockchain[s.blockchain.length - 2]? with
    | some last, some prev =>
        if s.notarized last.hash && s.notarized prev.hash then
          { s with finalized := s.finalized ++ [prev] }
        else s
    | _, _ => s

/-- `StreamletNode::castVote`: insert the replica's own id into the
voter set for `(epoch, blockHash)`; notarize the hash when the set's
size reaches `max 1 (2·f + 1)` with `f = (nNodes − 1) / 3` (truncating
division); finally re-check finalization. -/
def StreamletNode.castVote (s : StreamletNode) (blockHash : String)
    (epoch : Int) : StreamletNode :=
  let v := voteInsert s.nodeId (s.votes epoch blockHash)
  let s1 := { s with
    votes := fun e h => if e = epoch ∧ h = blockHash then v else s.votes e h }
  let f := Int.tdiv (s.nNodes - 1) 3
  let threshold := 2 * f + 1
  let s2 := if max 1 threshold ≤ (v.length : Int)
    then s1.notarizeBlock blockHash else s1
  s2.checkFinalization

/-- The two state mutations at the start of a successful
`StreamletNode::receiveProposal`: register the block in
`block_by_hash_` and append it to `blockchain_`. -/
def StreamletNode.adoptBlock (s : StreamletNode) (b : Block) :
    StreamletNode :=
  { s with
    blockByHash := fun h => if h == b.hash then some b else s.blockByHash h
    blockchain := s.blockchain ++ [b] }

/-- `StreamletNode::receiveProposal`: validate; on failure return
`false` unchanged; on success register the block, append it to the
chain, cast the replica's own vote, and return `true`. -/
def StreamletNode.receiveProposal (s : StreamletNode) (b : Block)
    (proposerId : Int) : Bool × StreamletNode :=
  if s.validateBlock b proposerId then
    (true, (s.adoptBlock b).castVote b.hash b.epoch)
  else (false, s)

/-- `StreamletNode::proposeBlock`: build a block extending the current
chain head (parent `"GENESIS"` if the chain were empty), then self-adopt
it via `receiveProposal`; returns the block and the updated replica. -/
def StreamletNode.proposeBlock (s : StreamletNode) (epoch : Int)
    (transactions : List String) (t : Int) : Block × StreamletNode :=
  let parent := match s.findLongestNotarizedChain with
    | some head => head.hash
    | none => "GENESIS"
  let b := Block.create epoch parent transactions s.nodeId t
  (b, (s.receiveProposal b s.nodeId).2)

/-- Protocol-driver state, mirroring `class StreamletProtocol`. -/
structure StreamletProtocol where
  nNodes : Int
  nodes : List StreamletNode

/-- The `StreamletProtocol` constructor: build replicas `0 … n−1` (no
validation of `n` is performed; for `n ≤ 0` the loop body never runs and
the replica list is empty).  `gts i` is the genesis creation time of
replica `i`. -/
def protocolInit (n : Int) (gts : Nat → Int) : StreamletProtocol :=
  { nNodes := n
    nodes := (List.range n.toNat).map (fun i => nodeInit (Int.ofNat i) n (gts i)) }

/-- The delivery loop of `StreamletProtocol::runEpoch`: every replica
except the leader receives the proposal attributed to `leader`; `i` is
the index of the first replica in `rest`. -/
def deliver (b : Block) (leader : Int) : Nat → List StreamletNode →
    List StreamletNode
  | _, [] => []
  | i, node :: rest =>
      (if (i : Int) = leader then node
       else (node.receiveProposal b leader).2) :: deliver b leader (i + 1) rest

/-- `StreamletProtocol::runEpoch`: compute the leader via the first
replica's `getEpochLeader`, let the leader propose (self-adopting the
block at creation time `t`), then deliver the proposal to every other
replica. -/
def runEpoch (p : StreamletProtocol) (epoch : Int) (txs : List String)
    (t : Int) : StreamletProtocol :=
  match p.nodes.head? with
  | none => p
  | some n0 =>
    let leader := n0.getEpochLeader epoch
    match p.nodes[leader.toNat]? with
    | none => p
    | some leaderNode =>
      let pr := leaderNode.proposeBlock epoch txs t
      let nodes1 := p.nodes.set leader.toNat pr.2
      { p with nodes := deliver pr.1 leader 0 nodes1 }

/-- Single-replica public operations (`proposeBlock`, `receiveProposal`,
`castVote`, `checkFinalization`) as a step relation on replica states. -/
inductive NodeStep : StreamletNode → StreamletNode → Prop
  | propose (s : StreamletNode) (epoch : Int) (txs : List String) (t : Int) :
      NodeStep s (s.proposeBlock epoch txs t).2
  | receive (s : StreamletNode) (b : Block) (pid : Int) :
      NodeStep s (s.receiveProposal b pid).2
  | vote (s : StreamletNode) (h : String) (e : Int) :
      NodeStep s (s.castVote h e)
  | checkFin (s : StreamletNode) :
      NodeStep s s.checkFinalization

/-- Replica states reachable through the public operations from a fresh
replica. -/
inductive NodeReach : StreamletNode → Prop
  | init (id n t0 : Int) : NodeReach (nodeInit id n t0)
  | step {s s' : StreamletNode} : NodeReach s → NodeStep s s' → NodeReach s'

/-- Protocol states reachable by constructing the driver with `n`
replicas (genesis times `gts`) and running any sequence of `runEpoch`
calls with non-negative epoch numbers.  (A negative epoch makes the C++
driver index `nodes_` out of bounds — undefined behaviour — so such
calls are outside the model.) -/
inductive Reach (n : Int) (gts : Nat → Int) : StreamletProtocol → Prop
  | init : Reach n gts (protocolInit n gts)
  | step {p : StreamletProtocol} (epoch : Int) (txs : List String) (t : Int) :
      Reach n gts p → 0 ≤ epoch → Reach n gts (runEpoch p epoch txs t)

/-- Number of `':'` characters in a string.  The hash-content encoding
separates its five fields with exactly four colons, and decimal integer
renderings contain none, which makes this count a convenient measure for
distinguishing a genesis hash (4 colons) from the hash of any block whose
parent field is itself a hash (≥ 8 colons). -/
def colons (s : String) : Nat := s.data.count ':'

end Streamlet

namespace Streamlet

lemma colons_append (a b : String) : colons (a ++ b) = colons a + colons b := by
  simp [colons, String.data_append, List.count_append]

lemma digitChar_eq_star (n : Nat) (hn : 16 ≤ n) : Nat.digitChar n = '*' := by
  unfold Nat.digitChar
  rw [if_neg (by omega : ¬ n = 0), if_neg (by omega : ¬ n = 1),
    if_neg (by omega : ¬ n = 2), if_neg (by omega : ¬ n = 3),
    if_neg (by omega : ¬ n = 4), if_neg (by omega : ¬ n = 5),
    if_neg (by omega : ¬ n = 6), if_neg (by omega : ¬ n = 7),
    if_neg (by omega : ¬ n = 8), if_neg (by omega : ¬ n = 9),
    if_neg (by omega : ¬ n = 10), if_neg (by omega : ¬ n = 11),
    if_neg (by omega : ¬ n = 12), if_neg (by omega : ¬ n = 13),
    if_neg (by omega : ¬ n = 14), if_neg (by omega : ¬ n = 15)]

lemma digitChar_ne_colon (n : Nat) : Nat.digitChar n ≠ ':' := by
  by_cases hn : n < 16
  · interval_cases n <;> decide
  · rw [digitChar_eq_star n (by omega)]
    decide

lemma digitChar_ne_dash (n : Nat) : Nat.digitChar n ≠ '-' := by
  by_cases hn : n < 16
  · interval_cases n <;> decide
  · rw [digitChar_eq_star n (by omega)]
    decide

lemma toDigitsCore_chars (b fuel n : Nat) (acc : List Char) :
    ∀ c ∈ Nat.toDigitsCore b fuel n acc, c ∈ acc ∨ ∃ m, c = Nat.digitChar m := by
  induction fuel generalizing n acc with
  | zero => intro c hc; exact Or.inl hc
  | succ fuel ih =>
    intro c hc
    rw [Nat.toDigitsCore] at hc
    by_cases hz : n / b = 0
    · simp only [hz, if_true] at hc
      rcases List.mem_cons.mp hc with h | h
      · exact Or.inr ⟨n % b, h⟩
      · exact Or.inl h
    · simp only [hz, if_false] at hc
      rcases ih (n / b) (Nat.digitChar (n % b) :: acc) c hc with h | h
      · rcases List.mem_cons.mp h with h' | h'
        · exact Or.inr ⟨n % b, h'⟩
        · exact Or.inl h'
      · exact Or.inr h

lemma natRepr_chars (n : Nat) :
    ∀ c ∈ (Nat.repr n).data, ∃ m, c = Nat.digitChar m := by
  intro c hc
  have : c ∈ Nat.toDigitsCore 10 (n + 1) n [] := by
    simpa [Nat.repr, Nat.toDigits, List.asString] using hc
  rcases toDigitsCore_chars 10 (n + 1) n [] c this with h | h
  · exact absurd h (List.not_mem_nil c)
  · exact h

lemma colons_natRepr (n : Nat) : colons (Nat.repr n) = 0 := by
  rw [colons, List.count_eq_zero]
  intro h
  rcases natRepr_chars n ':' h with ⟨m, hm⟩
  exact digitChar_ne_colon m hm.symm

lemma colons_intToString (i : Int) : colons (toString i) = 0 := by
  cases i with
  | ofNat m =>
      show colons (Nat.repr m) = 0
      exact colons_natRepr m
  | negSucc m =>
      show colons ("-" ++ Nat.repr (m + 1)) = 0
      rw [colons_append, colons_natRepr]
      decide

lemma colons_calculateHash (e : Int) (p : String) (txs : List String)
    (pid t : Int) :
    colons (calculateHash e p txs pid t) =
      4 + colons p + colons (txs.foldl (fun acc tx => acc ++ tx ++ "|") "") := by
  unfold calculateHash
  have h1 : colons ":" = 1 := by decide
  simp only [colons_append, colons_intToString, h1]
  omega

lemma colons_genesis (t : Int) : colons (genesisBlock t).hash = 4 := by
  show colons (calculateHash 0 "GENESIS" ["genesis"] (-1) t) = 4
  rw [colons_calculateHash]
  have h1 : colons "GENESIS" = 0 := by decide
  have h2 : colons ((["genesis"] : List String).foldl
      (fun acc tx => acc ++ tx ++ "|") "") = 0 := by decide
  rw [h1, h2]

lemma colons_create_ge (e : Int) (p : String) (txs : List String)
    (pid t : Int) :
    4 + colons p ≤ colons (Block.create e p txs pid t).hash := by
  show 4 + colons p ≤ colons (calculateHash e p txs pid t)
  rw [colons_calculateHash]
  omega

/-- Recover the numeric value of a decimal digit string (used only to
prove that `Nat.repr` is injective). -/
def ofDecChars (l : List Char) : Nat :=
  l.foldl (fun acc c => 10 * acc + (c.toNat - 48)) 0

lemma digitChar_toNat (m : Nat) (hm : m < 10) :
    (Nat.digitChar m).toNat = 48 + m := by
  interval_cases m <;> decide

lemma toDigitsCore_acc (b fuel n : Nat) (acc : List Char) :
    Nat.toDigitsCore b fuel n acc = Nat.toDigitsCore b fuel n [] ++ acc := by
  induction fuel generalizing n acc with
  | zero => simp [Nat.toDigitsCore]
  | succ fuel ih =>
    rw [Nat.toDigitsCore, Nat.toDigitsCore]
    by_cases hz : n / b = 0
    · simp [hz]
    · simp only [hz, if_false]
      rw [ih (n / b) [Nat.digitChar (n % b)], ih (n / b) (Nat.digitChar (n % b) :: acc)]
      simp

lemma ofDecChars_toDigitsCore (n : Nat) :
    ∀ fuel, n < fuel → ofDecChars (Nat.toDigitsCore 10 fuel n []) = n := by
  induction n using Nat.strong_induction_on with
  | _ n ih =>
    intro fuel hfuel
    cases fuel with
    | zero => omega
    | succ f =>
      rw [Nat.toDigitsCore]
      by_cases hz : n / 10 = 0
      · have hlt : n < 10 := by omega
        simp only [hz, if_true]
        show ofDecChars [Nat.digitChar (n % 10)] = n
        have hmod : n % 10 = n := Nat.mod_eq_of_lt hlt
        have h10 : (Nat.digitChar (n % 10)).toNat = 48 + n % 10 :=
          digitChar_toNat _ (Nat.mod_lt n (by omega))
        simp only [ofDecChars, List.foldl_cons, List.foldl_nil]
        rw [h10]
        omega
      · simp only [hz, if_false]
        rw [toDigitsCore_acc]
        have hd : n / 10 < n := Nat.div_lt_self (by omega) (by omega)
        have hfd : n / 10 < f := by omega
        show ofDecChars (Nat.toDigitsCore 10 f (n / 10) [] ++ [Nat.digitChar (n % 10)]) = n
        rw [ofDecChars, List.foldl_append]
        have hrec := ih (n / 10) hd f hfd
        rw [ofDecChars] at hrec
        rw [hrec]
        simp only [List.foldl_cons, List.foldl_nil]
        rw [digitChar_toNat (n % 10) (Nat.mod_lt n (by omega))]
        omega

lemma natRepr_injective {m n : Nat} (h : Nat.repr m = Nat.repr n) : m = n := by
  have h1 := ofDecChars_toDigitsCore m (m + 1) (by omega)
  have h2 := ofDecChars_toDigitsCore n (n + 1) (by omega)
  have hd : Nat.toDigitsCore 10 (m + 1) m [] = Nat.toDigitsCore 10 (n + 1) n [] := by
    have := congrArg String.data h
    simpa [Nat.repr, Nat.toDigits, List.asString] using this
  rw [hd, h2] at h1
  exact h1.symm

lemma natRepr_no_dash (n : Nat) : '-' ∉ (Nat.repr n).data := by
  intro h
  rcases natRepr_chars n '-' h with ⟨m, hm⟩
  exact digitChar_ne_dash m hm.symm

lemma intToString_injective {i j : Int} (h : toString i = toString j) :
    i = j := by
  cases i with
  | ofNat m =>
    cases j with
    | ofNat k =>
      have : Nat.repr m = Nat.repr k := h
      rw [natRepr_injective this]
    | negSucc k =>
      exfalso
      have hd : (Nat.repr m).data = '-' :: (Nat.repr (k + 1)).data := by
        have : Nat.repr m = "-" ++ Nat.repr (k + 1) := h
        have := congrArg String.data this
        simpa [String.data_append] using this
      exact natRepr_no_dash m (hd ▸ List.mem_cons_self '-' _)
  | negSucc m =>
    cases j with
    | ofNat k =>
      exfalso
      have hd : (Nat.repr k).data = '-' :: (Nat.repr (m + 1)).data := by
        have : Nat.repr k = "-" ++ Nat.repr (m + 1) := h.symm
        have := congrArg String.data this
        simpa [String.data_append] using this
      exact natRepr_no_dash k (hd ▸ List.mem_cons_self '-' _)
    | negSucc k =>
      have hs : ("-" : String) ++ Nat.repr (m + 1) = "-" ++ Nat.repr (k + 1) := h
      have hd : (Nat.repr (m + 1)).data = (Nat.repr (k + 1)).data := by
        have := congrArg String.data hs
        simp only [String.data_append] at this
        exact List.append_cancel_left this
      have hmk : m + 1 = k + 1 := natRepr_injective (String.ext hd)
      have : m = k := by omega
      rw [this]

lemma calculateHash_ne_empty (e : Int) (p : String) (txs : List String)
    (pid t : Int) : (calculateHash e p txs pid t == "") = false := by
  rw [beq_eq_false_iff_ne]
  intro h
  have := colons_calculateHash e p txs pid t
  rw [h] at this
  have h0 : colons "" = 0 := by decide
  omega

end Streamlet

namespace Streamlet

lemma voteInsert_self_mem (id : Int) (l : List Int) : id ∈ voteInsert id l := by
  unfold voteInsert
  split
  · assumption
  · simp

lemma voteInsert_of_mem {id : Int} {l : List Int} (h : id ∈ l) :
    voteInsert id l = l := by
  unfold voteInsert
  rw [if_pos h]

lemma length_le_voteInsert (id : Int) (l : List Int) :
    l.length ≤ (voteInsert id l).length := by
  unfold voteInsert
  split
  · exact le_refl _
  · simp

lemma voteInsert_singleton {id : Int} {l : List Int}
    (h : l = [] ∨ l = [id]) : voteInsert id l = [id] := by
  rcases h with h | h <;> subst h
  · rfl
  · exact voteInsert_of_mem (by simp)

lemma checkFinalization_nodeId (s : StreamletNode) :
    s.checkFinalization.nodeId = s.nodeId := by
  unfold StreamletNode.checkFinalization
  repeat' split
  all_goals rfl

lemma checkFinalization_nNodes (s : StreamletNode) :
    s.checkFinalization.nNodes = s.nNodes := by
  unfold StreamletNode.checkFinalization
  repeat' split
  all_goals rfl

lemma checkFinalization_blockchain (s : StreamletNode) :
    s.checkFinalization.blockchain = s.blockchain := by
  unfold StreamletNode.checkFinalization
  repeat' split
  all_goals rfl

lemma checkFinalization_blockByHash (s : StreamletNode) :
    s.checkFinalization.blockByHash = s.blockByHash := by
  unfold StreamletNode.checkFinalization
  repeat' split
  all_goals rfl

lemma checkFinalization_votes (s : StreamletNode) :
    s.checkFinalization.votes = s.votes := by
  unfold StreamletNode.checkFinalization
  repeat' split
  all_goals rfl

lemma checkFinalization_notarized (s : StreamletNode) :
    s.checkFinalization.notarized = s.notarized := by
  unfold StreamletNode.checkFinalization
  repeat' split
  all_goals rfl

lemma checkFinalization_of_short (s : StreamletNode)
    (h : s.blockchain.length < 2) : s.checkFinalization = s := by
  unfold StreamletNode.checkFinalization
  rw [if_pos h]

lemma checkFinalization_pair (s : StreamletNode) (l : List Block)
    (prev lst : Block) (hc : s.blockchain = l ++ [prev, lst]) :
    s.checkFinalization =
      if s.notarized lst.hash && s.notarized prev.hash then
        { s with finalized := s.finalized ++ [prev] }
      else s := by
  have hlen : s.blockchain.length = l.length + 2 := by rw [hc]; simp
  have h1 : s.blockchain[s.blockchain.length - 1]? = some lst := by
    rw [hlen, hc]
    rw [(by omega : l.length + 2 - 1 = l.length + 1),
      List.getElem?_append_right (by omega)]
    simp
  have h2 : s.blockchain[s.blockchain.length - 2]? = some prev := by
    rw [hlen, hc]
    rw [(by omega : l.length + 2 - 2 = l.length),
      List.getElem?_append_right (by omega)]
    simp
  unfold StreamletNode.checkFinalization
  rw [if_neg (by omega)]
  rw [h1, h2]

lemma castVote_nodeId (s : StreamletNode) (bh : String) (e : Int) :
    (s.castVote bh e).nodeId = s.nodeId := by
  simp only [StreamletNode.castVote]
  rw [checkFinalization_nodeId]
  split <;> rfl

lemma castVote_nNodes (s : StreamletNode) (bh : String) (e : Int) :
    (s.castVote bh e).nNodes = s.nNodes := by
  simp only [StreamletNode.castVote]
  rw [checkFinalization_nNodes]
  split <;> rfl

lemma castVote_blockchain (s : StreamletNode) (bh : String) (e : Int) :
    (s.castVote bh e).blockchain = s.blockchain := by
  simp only [StreamletNode.castVote]
  rw [checkFinalization_blockchain]
  split <;> rfl

lemma castVote_blockByHash (s : StreamletNode) (bh : String) (e : Int) :
    (s.castVote bh e).blockByHash = s.blockByHash := by
  simp only [StreamletNode.castVote]
  rw [checkFinalization_blockByHash]
  split <;> rfl

lemma castVote_votes (s : StreamletNode) (bh : String) (e : Int) :
    (s.castVote bh e).votes = fun e' h' =>
      if e' = e ∧ h' = bh then voteInsert s.nodeId (s.votes e bh)
      else s.votes e' h' := by
  simp only [StreamletNode.castVote]
  rw [checkFinalization_votes]
  split <;> rfl

lemma castVote_notarized (s : StreamletNode) (bh : String) (e : Int) :
    (s.castVote bh e).notarized =
      if max 1 (2 * Int.tdiv (s.nNodes - 1) 3 + 1) ≤
          ((voteInsert s.nodeId (s.votes e bh)).length : Int) then
        fun h => h == bh || s.notarized h
      else s.notarized := by
  simp only [StreamletNode.castVote]
  rw [checkFinalization_notarized]
  split <;> rfl

lemma castVote_decomp (s : StreamletNode) (bh : String) (e : Int) :
    s.castVote bh e =
      (if max 1 (2 * Int.tdiv (s.nNodes - 1) 3 + 1) ≤
          ((voteInsert s.nodeId (s.votes e bh)).length : Int) then
        ({ s with votes := (fun e' h' =>
            if e' = e ∧ h' = bh then voteInsert s.nodeId (s.votes e bh)
            else s.votes e' h') } : StreamletNode).notarizeBlock bh
      else
        { s with votes := (fun e' h' =>
            if e' = e ∧ h' = bh then voteInsert s.nodeId (s.votes e bh)
            else s.votes e' h') }).checkFinalization := rfl

lemma castVote_notarized_self_of_quorum (s : StreamletNode) (bh : String)
    (e : Int)
    (h : max 1 (2 * Int.tdiv (s.nNodes - 1) 3 + 1) ≤
      ((voteInsert s.nodeId (s.votes e bh)).length : Int)) :
    (s.castVote bh e).notarized bh = true := by
  rw [castVote_notarized, if_pos h]
  simp

lemma receiveProposal_of_invalid (s : StreamletNode) (b : Block) (pid : Int)
    (h : s.validateBlock b pid = false) :
    s.receiveProposal b pid = (false, s) := by
  unfold StreamletNode.receiveProposal
  rw [h]
  simp

lemma receiveProposal_of_valid (s : StreamletNode) (b : Block) (pid : Int)
    (h : s.validateBlock b pid = true) :
    s.receiveProposal b pid =
      (true, (s.adoptBlock b).castVote b.hash b.epoch) := by
  unfold StreamletNode.receiveProposal
  rw [h]
  simp

lemma adoptBlock_votes (s : StreamletNode) (b : Block) :
    (s.adoptBlock b).votes = s.votes := rfl

lemma adoptBlock_notarized (s : StreamletNode) (b : Block) :
    (s.adoptBlock b).notarized = s.notarized := rfl

lemma adoptBlock_nNodes (s : StreamletNode) (b : Block) :
    (s.adoptBlock b).nNodes = s.nNodes := rfl

lemma adoptBlock_nodeId (s : StreamletNode) (b : Block) :
    (s.adoptBlock b).nodeId = s.nodeId := rfl

lemma adoptBlock_finalized (s : StreamletNode) (b : Block) :
    (s.adoptBlock b).finalized = s.finalized := rfl

lemma adoptBlock_blockchain (s : StreamletNode) (b : Block) :
    (s.adoptBlock b).blockchain = s.blockchain ++ [b] := rfl

lemma adoptBlock_head (s : StreamletNode) (b : Block) (g : Block)
    (hg : s.blockchain.head? = some g) :
    (s.adoptBlock b).blockchain.head? = some g := by
  rw [adoptBlock_blockchain]
  cases hc : s.blockchain with
  | nil => rw [hc] at hg; exact absurd hg (by simp)
  | cons a l =>
      rw [hc] at hg
      simpa using hg

end Streamlet

namespace Streamlet

/-- C7: for every replica and every (block, proposerId) pair where the
block fails `isValid` or the declared proposer differs from the block's
embedded proposer id, `receiveProposal` returns `false` and leaves the
entire replica state (chain, registry, vote sets, notarized set,
finalized sequence) unchanged. -/
theorem receiveProposal_rejects (s : StreamletNode) (b : Block) (pid : Int)
    (h : b.isValid = false ∨ pid ≠ b.proposerId) :
    s.receiveProposal b pid = (false, s) := by
  apply receiveProposal_of_invalid
  unfold StreamletNode.validateBlock
  rcases h with h | h
  · rw [h, Bool.false_and]
  · rw [decide_eq_false h, Bool.and_false]

/-- Witness for C7 at a concrete input: the (invalid) genesis block with
a mismatched proposer id is rejected by a fresh replica. -/
theorem receiveProposal_rejects_witness :
    (nodeInit 0 4 0).receiveProposal (genesisBlock 0) 3 =
      (false, nodeInit 0 4 0) :=
  receiveProposal_rejects (nodeInit 0 4 0) (genesisBlock 0) 3
    (Or.inl (by decide))

/-- C10: the genesis block (epoch 0, parent "GENESIS", proposer −1)
fails `isValid` because its proposer id is negative, so `receiveProposal`
applied to it returns `false` for every proposer-id argument and every
replica state — even though the genesis block sits in every fresh
replica's chain, registry, and notarized set. -/
theorem genesis_block_invalid (s : StreamletNode) (t0 pid id n : Int) :
    (genesisBlock t0).isValid = false ∧
    s.receiveProposal (genesisBlock t0) pid = (false, s) ∧
    (nodeInit id n t0).blockchain = [genesisBlock t0] ∧
    (nodeInit id n t0).blockByHash (genesisBlock t0).hash =
      some (genesisBlock t0) ∧
    (nodeInit id n t0).notarized (genesisBlock t0).hash = true := by
  have hinv : (genesisBlock t0).isValid = false := by
    unfold Block.isValid
    have hp : decide ((0:Int) ≤ (genesisBlock t0).proposerId) = false := by
      show decide ((0:Int) ≤ -1) = false
      decide
    rw [hp, Bool.and_false]
  refine ⟨hinv, ?_, rfl, ?_, ?_⟩
  · apply receiveProposal_of_invalid
    unfold StreamletNode.validateBlock
    rw [hinv, Bool.false_and]
  · show (if (genesisBlock t0).hash == (genesisBlock t0).hash then
        some (genesisBlock t0) else none) = some (genesisBlock t0)
    simp
  · show ((genesisBlock t0).hash == (genesisBlock t0).hash) = true
    simp

/-- C5: `checkFinalization` appends the second-to-last block of the
chain (adoption order) to the finalized sequence exactly when the chain
has at least two blocks and the last two blocks are both notarized;
otherwise it leaves the state unchanged. -/
theorem checkFinalization_two_chain_rule (s : StreamletNode) :
    (s.blockchain.length < 2 → s.checkFinalization = s) ∧
    (∀ (l : List Block) (prev lst : Block), s.blockchain = l ++ [prev, lst] →
      ((s.notarized lst.hash = true ∧ s.notarized prev.hash = true) →
        s.checkFinalization = { s with finalized := s.finalized ++ [prev] }) ∧
      (¬ (s.notarized lst.hash = true ∧ s.notarized prev.hash = true) →
        s.checkFinalization = s)) := by
  refine ⟨checkFinalization_of_short s, ?_⟩
  intro l prev lst hc
  rw [checkFinalization_pair s l prev lst hc]
  constructor
  · rintro ⟨h1, h2⟩
    rw [if_pos (by rw [h1, h2]; rfl)]
  · intro hn
    rw [if_neg (by simpa [Bool.and_eq_true] using hn)]

/-- Witness for C5: on a 1-replica node whose chain tail pair (genesis,
first proposal) is fully notarized, `checkFinalization` appends genesis
to the finalized sequence. -/
theorem checkFinalization_two_chain_rule_witness :
    ((nodeInit 0 1 7).proposeBlock 1 ["t1"] 8).2.checkFinalization =
      { ((nodeInit 0 1 7).proposeBlock 1 ["t1"] 8).2 with
        finalized := ((nodeInit 0 1 7).proposeBlock 1 ["t1"] 8).2.finalized
          ++ [genesisBlock 7] } :=
  ((checkFinalization_two_chain_rule _).2 []
    (genesisBlock 7) ((nodeInit 0 1 7).proposeBlock 1 ["t1"] 8).1
    (by decide)).1 ⟨by decide, by decide⟩

/-- C9 counterexample: at epoch −1 with 4 replicas the C++ `%` operator
(truncating remainder) yields −1, which differs from the mathematical
`(−1) mod 4 = 3`, and round-robin periodicity fails:
`epochLeader (−1) ≠ epochLeader (−1 + 4)`. -/
theorem epochLeader_negative_epoch :
    (nodeInit 0 4 0).getEpochLeader (-1) = -1 ∧
    ((-1 : Int) % 4 = 3) ∧
    (nodeInit 0 4 0).getEpochLeader (-1 + 4) = 3 := by decide

/-- C9 amended: for every replica with `n ≥ 1` and every **non-negative**
epoch, `epochLeader epoch = epoch mod n`, leaders repeat with period `n`,
and every replica of the same instance (any id, any genesis time)
computes the same leader. -/
theorem epochLeader_mod (id n t0 id' t0' epoch : Int)
    (hn : 1 ≤ n) (he : 0 ≤ epoch) :
    (nodeInit id n t0).getEpochLeader epoch = epoch % n ∧
    (nodeInit id n t0).getEpochLeader (epoch + n) =
      (nodeInit id n t0).getEpochLeader epoch ∧
    (nodeInit id' n t0').getEpochLeader epoch =
      (nodeInit id n t0).getEpochLeader epoch := by
  have hmod : ∀ a : Int, 0 ≤ a → Int.tmod a n = a % n := fun a ha =>
    Int.tmod_eq_emod ha (by omega)
  refine ⟨hmod epoch he, ?_, rfl⟩
  show Int.tmod (epoch + n) n = Int.tmod epoch n
  rw [hmod _ (by omega), hmod _ he]
  conv_lhs => rw [(by ring : epoch + n = epoch + n * 1)]
  exact Int.add_mul_emod_self_left epoch n 1

/-- Witness for C9's amended statement at concrete values. -/
theorem epochLeader_mod_witness :
    (nodeInit 0 4 0).getEpochLeader 6 = 6 % 4 ∧
    (nodeInit 0 4 0).getEpochLeader (6 + 4) =
      (nodeInit 0 4 0).getEpochLeader 6 ∧
    (nodeInit 2 4 9).getEpochLeader 6 = (nodeInit 0 4 0).getEpochLeader 6 :=
  epochLeader_mod 0 4 0 2 9 6 (by decide) (by decide)

/-- C2 counterexample: constructing the driver with `n = 0 < 1` replicas
is **not** rejected — the constructor performs no validation, its loop
body never runs, and it silently returns a driver whose replica list is
empty. -/
theorem protocolInit_zero_silent :
    (protocolInit 0 (fun _ => 0)).nodes = [] ∧
    (protocolInit 0 (fun _ => 0)).nNodes = 0 :=
  ⟨rfl, rfl⟩

/-- C2 amended: for replica count 0 construction succeeds silently (for
any genesis-time environment), producing a driver that records
`nNodes = 0` and holds no replicas at all. -/
theorem protocolInit_zero_amended (gts : Nat → Int) :
    (protocolInit 0 gts).nodes = [] ∧ (protocolInit 0 gts).nNodes = 0 :=
  ⟨rfl, rfl⟩

/-- Claim C8 as stated: two distinct `create` calls with identical
logical content (epoch, parent, transactions, proposer) always produce
different hashes.  Two calls are distinguished only by their creation
timestamps, so the claim quantifies over both timestamps. -/
def alwaysDistinctHashClaim : Prop :=
  ∀ (e : Int) (p : String) (txs : List String) (pid : Int) (t1 t2 : Int),
    (Block.create e p txs pid t1).hash ≠ (Block.create e p txs pid t2).hash

/-- C8 counterexample: `to_time_t` has seconds resolution, so two
distinct create calls can carry the same timestamp, and then their
hashes coincide. -/
theorem create_equal_timestamp_collision : ¬ alwaysDistinctHashClaim :=
  fun h => h 1 "p" [] 0 0 0 rfl

/-- C8 amended: the hash is a deterministic function of the declared
inputs plus the creation timestamp, and for fixed logical content two
create calls yield equal hashes **iff** their (seconds-resolution)
timestamps are equal — so same-instant duplicates collide, and the
hashes differ exactly when the timestamps differ. -/
theorem create_hash_eq_iff (e : Int) (p : String) (txs : List String)
    (pid : Int) (t1 t2 : Int) :
    (Block.create e p txs pid t1).hash = (Block.create e p txs pid t2).hash
      ↔ t1 = t2 := by
  constructor
  · intro h
    have hd : (toString t1).data = (toString t2).data := by
      have h' : calculateHash e p txs pid t1 = calculateHash e p txs pid t2 := h
      unfold calculateHash at h'
      have := congrArg String.data h'
      simp only [String.data_append, List.append_assoc,
        List.append_cancel_left_eq] at this
      exact this
    exact intToString_injective (String.ext hd)
  · intro h
    rw [h]

/-- C6: `castVote` adds the calling replica's own id to the vote set for
`(epoch, blockHash)`, and a not-yet-notarized hash becomes notarized
exactly when that vote set's size reaches `max 1 (2f+1)` with
`f = (n − 1) / 3`; in particular with `n = 1` the threshold is 1, so a
self-proposed block notarizes immediately on the proposer's own vote. -/
theorem castVote_quorum_rule :
    (∀ (s : StreamletNode) (bh : String) (e : Int),
      (s.castVote bh e).votes e bh = voteInsert s.nodeId (s.votes e bh) ∧
      (s.notarized bh = false →
        ((s.castVote bh e).notarized bh = true ↔
          max 1 (2 * Int.tdiv (s.nNodes - 1) 3 + 1) ≤
            ((voteInsert s.nodeId (s.votes e bh)).length : Int)))) ∧
    (∀ (t0 e : Int) (txs : List String) (t : Int), 0 ≤ e →
      ((nodeInit 0 1 t0).proposeBlock e txs t).2.notarized
        ((nodeInit 0 1 t0).proposeBlock e txs t).1.hash = true) := by
  constructor
  · intro s bh e
    constructor
    · rw [castVote_votes]
      simp
    · intro hfalse
      rw [castVote_notarized]
      split
      · next hcond =>
          constructor
          · intro _
            exact hcond
          · intro _
            simp
      · next hcond =>
          rw [hfalse]
          exact iff_of_false (by simp) hcond
  · intro t0 e txs t he
    have hval : (nodeInit 0 1 t0).validateBlock
        (Block.create e (genesisBlock t0).hash txs 0 t) 0 = true := by
      unfold StreamletNode.validateBlock Block.isValid
      rw [show (Block.create e (genesisBlock t0).hash txs 0 t).hash =
        calculateHash e (genesisBlock t0).hash txs 0 t from rfl]
      rw [calculateHash_ne_empty]
      simp [he, Block.create]
    show ((nodeInit 0 1 t0).receiveProposal
        (Block.create e (genesisBlock t0).hash txs 0 t) 0).2.notarized
      (Block.create e (genesisBlock t0).hash txs 0 t).hash = true
    simp only [receiveProposal_of_valid _ _ _ hval]
    apply castVote_notarized_self_of_quorum
    show max 1 (2 * Int.tdiv ((1:Int) - 1) 3 + 1) ≤
      ((voteInsert 0 ([] : List Int)).length : Int)
    decide

/-- Witness for C6 at concrete inputs: a vote on a 4-replica node
records the voter, leaves the (sub-threshold) hash un-notarized, and the
`n = 1` instance notarizes a self-proposed block immediately. -/
theorem castVote_quorum_rule_witness :
    ((nodeInit 0 4 0).castVote "x" 1).votes 1 "x" =
      voteInsert (nodeInit 0 4 0).nodeId ((nodeInit 0 4 0).votes 1 "x") ∧
    (((nodeInit 0 4 0).castVote "x" 1).notarized "x" = true ↔
      max 1 (2 * Int.tdiv ((nodeInit 0 4 0).nNodes - 1) 3 + 1) ≤
        ((voteInsert (nodeInit 0 4 0).nodeId
          ((nodeInit 0 4 0).votes 1 "x")).length : Int)) ∧
    ((nodeInit 0 1 5).proposeBlock 2 ["tx"] 9).2.notarized
      ((nodeInit 0 1 5).proposeBlock 2 ["tx"] 9).1.hash = true :=
  ⟨(castVote_quorum_rule.1 (nodeInit 0 4 0) "x" 1).1,
   (castVote_quorum_rule.1 (nodeInit 0 4 0) "x" 1).2 (by decide),
   castVote_quorum_rule.2 5 2 ["tx"] 9 (by decide)⟩

/-- C4 counterexample: repeating `castVote` with the same
`(epoch, blockHash)` is **not** a no-op.  On a 1-replica node whose
chain tail pair is fully notarized, the repeated vote re-runs the
finalization check and appends a duplicate entry to the finalized
sequence. -/
theorem castVote_repeat_changes_state :
    (((nodeInit 0 1 7).proposeBlock 1 ["t1"] 8).2.castVote
        ((nodeInit 0 1 7).proposeBlock 1 ["t1"] 8).1.hash 1).finalized ≠
      ((nodeInit 0 1 7).proposeBlock 1 ["t1"] 8).2.finalized := by decide

/-- C4 amended: a repeated `castVote` with the same `(epoch, blockHash)`
leaves the vote sets, notarized set, chain, and block registry exactly
as after the first call, but re-runs the finalization check (appending
the second-to-last chain block again whenever the last two blocks are
both notarized); in particular it is a true no-op whenever the chain has
fewer than two blocks. -/
theorem castVote_repeat (s : StreamletNode) (bh : String) (e : Int) :
    ((s.castVote bh e).castVote bh e =
      (s.castVote bh e).checkFinalization) ∧
    ((s.castVote bh e).castVote bh e).votes = (s.castVote bh e).votes ∧
    ((s.castVote bh e).castVote bh e).notarized =
      (s.castVote bh e).notarized ∧
    ((s.castVote bh e).castVote bh e).blockchain =
      (s.castVote bh e).blockchain ∧
    ((s.castVote bh e).castVote bh e).blockByHash =
      (s.castVote bh e).blockByHash ∧
    ((s.castVote bh e).blockchain.length < 2 →
      (s.castVote bh e).castVote bh e = s.castVote bh e) := by
  have hmain : (s.castVote bh e).castVote bh e =
      (s.castVote bh e).checkFinalization := by
    set s1 := s.castVote bh e with hs1
    have hid : s1.nodeId = s.nodeId := castVote_nodeId s bh e
    have hnn : s1.nNodes = s.nNodes := castVote_nNodes s bh e
    have hv1 : s1.votes e bh = voteInsert s.nodeId (s.votes e bh) := by
      rw [hs1, castVote_votes]
      simp
    have hv2 : voteInsert s1.nodeId (s1.votes e bh) = s1.votes e bh := by
      rw [hid, hv1]
      exact voteInsert_of_mem (voteInsert_self_mem _ _)
    rw [castVote_decomp s1 bh e]
    have hupd : ({ s1 with votes := (fun e' h' =>
        if e' = e ∧ h' = bh then voteInsert s1.nodeId (s1.votes e bh)
        else s1.votes e' h') } : StreamletNode) = s1 := by
      have hfn : (fun e' h' =>
          if e' = e ∧ h' = bh then voteInsert s1.nodeId (s1.votes e bh)
          else s1.votes e' h') = s1.votes := by
        funext e' h'
        by_cases hk : e' = e ∧ h' = bh
        · rcases hk with ⟨rfl, rfl⟩
          rw [if_pos ⟨rfl, rfl⟩, hv2]
        · rw [if_neg hk]
      rw [hfn]
    rw [hupd]
    split
    · next hcond =>
        have hcond' : max 1 (2 * Int.tdiv (s.nNodes - 1) 3 + 1) ≤
            ((voteInsert s.nodeId (s.votes e bh)).length : Int) := by
          rw [← hnn, ← hv1, ← hv2]
          exact hcond
        have hnotar : s1.notarized bh = true := by
          rw [hs1]
          exact castVote_notarized_self_of_quorum s bh e hcond'
        have hnb : s1.notarizeBlock bh = s1 := by
          show ({ s1 with notarized := (fun h => h == bh || s1.notarized h) }
            : StreamletNode) = s1
          have hfn : (fun h => h == bh || s1.notarized h) = s1.notarized := by
            funext h
            cases hb : h == bh
            · simp
            · rw [eq_of_beq hb]
              simp [hnotar]
          rw [hfn]
        rw [hnb]
    · rfl
  refine ⟨hmain, ?_, ?_, ?_, ?_, ?_⟩
  · rw [hmain, checkFinalization_votes]
  · rw [hmain, checkFinalization_notarized]
  · rw [hmain, checkFinalization_blockchain]
  · rw [hmain, checkFinalization_blockByHash]
  · intro hshort
    rw [hmain, checkFinalization_of_short _ hshort]

/-- Witness for C4's amended statement: on a fresh 4-replica node (chain
length 1 < 2) the repeated vote is a true no-op. -/
theorem castVote_repeat_witness :
    ((nodeInit 0 4 0).castVote "x" 1).castVote "x" 1 =
      (nodeInit 0 4 0).castVote "x" 1 :=
  (castVote_repeat (nodeInit 0 4 0) "x" 1).2.2.2.2.2 (by decide)

end Streamlet

namespace Streamlet

lemma proposeBlock_eq_receive (s : StreamletNode) (e : Int)
    (txs : List String) (t : Int) :
    ∃ b, (s.proposeBlock e txs t).2 = (s.receiveProposal b s.nodeId).2 :=
  ⟨_, rfl⟩

lemma castVote_votes_mono (s : StreamletNode) (bh : String) (e e' : Int)
    (h' : String) :
    (s.votes e' h').length ≤ ((s.castVote bh e).votes e' h').length := by
  simp only [castVote_votes]
  by_cases hk : e' = e ∧ h' = bh
  · rcases hk with ⟨rfl, rfl⟩
    rw [if_pos ⟨rfl, rfl⟩]
    exact length_le_voteInsert _ _
  · rw [if_neg hk]

lemma castVote_notarized_mono (s : StreamletNode) (bh : String) (e : Int)
    (h' : String) (hh : s.notarized h' = true) :
    (s.castVote bh e).notarized h' = true := by
  rw [castVote_notarized]
  split
  · show (h' == bh || s.notarized h') = true
    rw [hh]
    simp
  · exact hh

lemma receiveProposal_nNodes (s : StreamletNode) (b : Block) (pid : Int) :
    (s.receiveProposal b pid).2.nNodes = s.nNodes := by
  unfold StreamletNode.receiveProposal
  split
  · dsimp only
    rw [castVote_nNodes, adoptBlock_nNodes]
  · rfl

lemma receiveProposal_votes_mono (s : StreamletNode) (b : Block) (pid e' : Int)
    (h' : String) :
    (s.votes e' h').length ≤ ((s.receiveProposal b pid).2.votes e' h').length := by
  unfold StreamletNode.receiveProposal
  split
  · dsimp only
    have h0 : (s.votes e' h').length = ((s.adoptBlock b).votes e' h').length := rfl
    rw [h0]
    exact castVote_votes_mono (s.adoptBlock b) b.hash b.epoch e' h'
  · exact le_refl _

lemma receiveProposal_notarized_mono (s : StreamletNode) (b : Block)
    (pid : Int) (h' : String) (hh : s.notarized h' = true) :
    (s.receiveProposal b pid).2.notarized h' = true := by
  unfold StreamletNode.receiveProposal
  split
  · dsimp only
    exact castVote_notarized_mono (s.adoptBlock b) b.hash b.epoch h' hh
  · exact hh

lemma receiveProposal_head (s : StreamletNode) (b : Block) (pid : Int)
    (g : Block) (hg : s.blockchain.head? = some g) :
    (s.receiveProposal b pid).2.blockchain.head? = some g := by
  unfold StreamletNode.receiveProposal
  split
  · dsimp only
    rw [castVote_blockchain]
    exact adoptBlock_head s b g hg
  · exact hg

/-- Node-step monotonicity: no public operation ever shrinks a vote set,
removes a notarized hash, changes the replica parameters, or changes the
chain head. -/
lemma nodeStep_mono {s s' : StreamletNode} (hstep : NodeStep s s') :
    s'.nNodes = s.nNodes ∧
    (∀ e' h', (s.votes e' h').length ≤ (s'.votes e' h').length) ∧
    (∀ h', s.notarized h' = true → s'.notarized h' = true) ∧
    (∀ g, s.blockchain.head? = some g → s'.blockchain.head? = some g) := by
  cases hstep with
  | propose e txs t =>
      rcases proposeBlock_eq_receive s e txs t with ⟨b, hb⟩
      rw [hb]
      exact ⟨receiveProposal_nNodes s b s.nodeId,
        fun e' h' => receiveProposal_votes_mono s b s.nodeId e' h',
        fun h' => receiveProposal_notarized_mono s b s.nodeId h',
        fun g => receiveProposal_head s b s.nodeId g⟩
  | receive b pid =>
      exact ⟨receiveProposal_nNodes s b pid,
        fun e' h' => receiveProposal_votes_mono s b pid e' h',
        fun h' => receiveProposal_notarized_mono s b pid h',
        fun g => receiveProposal_head s b pid g⟩
  | vote bh e =>
      exact ⟨castVote_nNodes s bh e,
        fun e' h' => castVote_votes_mono s bh e e' h',
        fun h' => castVote_notarized_mono s bh e h',
        fun g hg => by rw [castVote_blockchain]; exact hg⟩
  | checkFin =>
      exact ⟨checkFinalization_nNodes s,
        fun e' h' => by rw [checkFinalization_votes],
        fun h' hh => by rw [checkFinalization_notarized]; exact hh,
        fun g hg => by rw [checkFinalization_blockchain]; exact hg⟩

/-- Invariant for claim C3 (amended): the chain head is the replica's
genesis block, and every notarized hash is either that genesis hash or
has, for some epoch, a vote set of at least quorum size. -/
def NotarizedQuorumOrGenesis (s : StreamletNode) : Prop :=
  ∃ g, s.blockchain.head? = some g ∧
    ∀ h, s.notarized h = true →
      h = g.hash ∨ ∃ e, max 1 (2 * Int.tdiv (s.nNodes - 1) 3 + 1) ≤
        ((s.votes e h).length : Int)

lemma castVote_preserves_nqog (s : StreamletNode) (bh : String) (e : Int)
    (hs : NotarizedQuorumOrGenesis s) :
    NotarizedQuorumOrGenesis (s.castVote bh e) := by
  rcases hs with ⟨g, hg, hinv⟩
  refine ⟨g, by rw [castVote_blockchain]; exact hg, ?_⟩
  intro h hh
  have lift : s.notarized h = true →
      h = g.hash ∨ ∃ e', max 1 (2 * Int.tdiv ((s.castVote bh e).nNodes - 1) 3 + 1) ≤
        (((s.castVote bh e).votes e' h).length : Int) := by
    intro hold
    rcases hinv h hold with hgen | ⟨e', he'⟩
    · exact Or.inl hgen
    · refine Or.inr ⟨e', ?_⟩
      rw [castVote_nNodes]
      calc max 1 (2 * Int.tdiv (s.nNodes - 1) 3 + 1)
          ≤ ((s.votes e' h).length : Int) := he'
        _ ≤ (((s.castVote bh e).votes e' h).length : Int) := by
            exact_mod_cast castVote_votes_mono s bh e e' h
  rw [castVote_notarized] at hh
  by_cases hcond : max 1 (2 * Int.tdiv (s.nNodes - 1) 3 + 1) ≤
      ((voteInsert s.nodeId (s.votes e bh)).length : Int)
  · rw [if_pos hcond] at hh
    have hh' : (h == bh || s.notarized h) = true := hh
    cases hb : h == bh with
    | true =>
        have hhb : h = bh := eq_of_beq hb
        subst hhb
        refine Or.inr ⟨e, ?_⟩
        rw [castVote_nNodes]
        simp only [castVote_votes]
        simp only [and_self, if_true]
        exact hcond
    | false =>
        rw [hb, Bool.false_or] at hh'
        exact lift hh'
  · rw [if_neg hcond] at hh
    exact lift hh

lemma checkFinalization_preserves_nqog (s : StreamletNode)
    (hs : NotarizedQuorumOrGenesis s) :
    NotarizedQuorumOrGenesis s.checkFinalization := by
  rcases hs with ⟨g, hg, hinv⟩
  refine ⟨g, by rw [checkFinalization_blockchain]; exact hg, ?_⟩
  intro h hh
  rw [checkFinalization_notarized] at hh
  rw [checkFinalization_nNodes, checkFinalization_votes]
  exact hinv h hh

lemma receiveProposal_preserves_nqog (s : StreamletNode) (b : Block)
    (pid : Int) (hs : NotarizedQuorumOrGenesis s) :
    NotarizedQuorumOrGenesis (s.receiveProposal b pid).2 := by
  unfold StreamletNode.receiveProposal
  split
  · dsimp only
    apply castVote_preserves_nqog
    rcases hs with ⟨g, hg, hinv⟩
    exact ⟨g, adoptBlock_head s b g hg, hinv⟩
  · exact hs

lemma nodeStep_preserves_nqog {s s' : StreamletNode} (hstep : NodeStep s s')
    (hs : NotarizedQuorumOrGenesis s) : NotarizedQuorumOrGenesis s' := by
  cases hstep with
  | propose e txs t =>
      rcases proposeBlock_eq_receive s e txs t with ⟨b, hb⟩
      rw [hb]
      exact receiveProposal_preserves_nqog s b s.nodeId hs
  | receive b pid => exact receiveProposal_preserves_nqog s b pid hs
  | vote bh e => exact castVote_preserves_nqog s bh e hs
  | checkFin => exact checkFinalization_preserves_nqog s hs

/-- Claim C3 as stated: on every replica state reachable through the
public operations, every hash in the notarized set (including genesis)
has a vote set of at least quorum size, and notarized hashes are never
removed. -/
def notarizedQuorumClaim : Prop :=
  (∀ s, NodeReach s → ∀ h, s.notarized h = true →
    ∃ e, max 1 (2 * Int.tdiv (s.nNodes - 1) 3 + 1) ≤
      ((s.votes e h).length : Int)) ∧
  (∀ s s', NodeStep s s' → ∀ h, s.notarized h = true → s'.notarized h = true)

/-- C3 counterexample: the freshly initialized replica notarizes its
genesis hash with an **empty** vote set — no epoch has any vote for it,
so its vote-set size 0 is below `max 1 (2f+1) = 3` (n = 4). -/
theorem genesis_vote_set_empty : ¬ notarizedQuorumClaim := by
  rintro ⟨hA, _⟩
  rcases hA (nodeInit 0 4 0) (NodeReach.init 0 4 0) (genesisBlock 0).hash
    (by decide) with ⟨e, he⟩
  have hn : ¬ ((max 1 (2 * Int.tdiv ((4:Int) - 1) 3 + 1) : Int) ≤
      (([] : List Int).length : Int)) := by decide
  exact hn he

/-- C3 amended: on every replica state reachable through the public
operations, every notarized hash is either the replica's own genesis
hash (notarized unconditionally at initialization, with an empty vote
set) or has, for some epoch, a vote set of size at least
`max 1 (2f+1)`; and a hash once in the notarized set is never removed
by any public operation. -/
theorem notarized_monotone_and_quorum :
    (∀ s, NodeReach s → NotarizedQuorumOrGenesis s) ∧
    (∀ s s', NodeStep s s' → ∀ h, s.notarized h = true →
      s'.notarized h = true) := by
  constructor
  · intro s hs
    induction hs with
    | init id n t0 =>
        refine ⟨genesisBlock t0, rfl, ?_⟩
        intro h hh
        exact Or.inl (eq_of_beq hh)
    | step hreach hstep ih =>
        exact nodeStep_preserves_nqog hstep ih
  · intro s s' hstep
    exact (nodeStep_mono hstep).2.2.1

/-- Witness for C3's amended statement: the invariant holds on a fresh
4-replica node, and a `castVote` step keeps the genesis hash
notarized. -/
theorem notarized_monotone_and_quorum_witness :
    NotarizedQuorumOrGenesis (nodeInit 0 4 0) ∧
    ((nodeInit 0 4 0).castVote "x" 1).notarized (genesisBlock 0).hash =
      true :=
  ⟨notarized_monotone_and_quorum.1 (nodeInit 0 4 0) (NodeReach.init 0 4 0),
   notarized_monotone_and_quorum.2 (nodeInit 0 4 0) _
     (NodeStep.vote (nodeInit 0 4 0) "x" 1) (genesisBlock 0).hash
     (by decide)⟩

end Streamlet

namespace Streamlet

/-- Per-replica invariant driving claim C1 (protocol run with `n`
replicas and no vote delivery between replicas): the replica records `n`,
every vote set holds at most its own id, nothing is finalized, only the
own genesis hash is notarized, and every chain hash carries at least 4
colons (so that a freshly proposed block — whose hash embeds a parent
hash and hence carries at least 8 colons — can never collide with the
4-colon genesis hash). -/
def NodeInvC1 (n : Int) (s : StreamletNode) : Prop :=
  s.nNodes = n ∧
  (∀ e h, s.votes e h = [] ∨ s.votes e h = [s.nodeId]) ∧
  s.finalized = [] ∧
  (∃ t0, s.blockchain.head? = some (genesisBlock t0) ∧
    ∀ h, s.notarized h = true → h = (genesisBlock t0).hash) ∧
  (∀ b ∈ s.blockchain, 4 ≤ colons b.hash)

lemma nodeInvC1_init (n id t0 : Int) : NodeInvC1 n (nodeInit id n t0) := by
  refine ⟨rfl, fun e h => Or.inl rfl, rfl,
    ⟨t0, rfl, fun h hh => eq_of_beq hh⟩, ?_⟩
  intro b hb
  have : b = genesisBlock t0 := by simpa [nodeInit] using hb
  rw [this, colons_genesis]

lemma one_le_f {n : Int} (hn : 4 ≤ n) : 1 ≤ Int.tdiv (n - 1) 3 := by
  rw [Int.tdiv_eq_ediv (by omega) (by omega)]
  rw [Int.le_ediv_iff_mul_le (by omega)]
  omega

lemma nodeInvC1_receive {n : Int} {s : StreamletNode} (b : Block) (pid : Int)
    (hn : 4 ≤ n) (hinv : NodeInvC1 n s) (hb : 8 ≤ colons b.hash) :
    NodeInvC1 n (s.receiveProposal b pid).2 := by
  obtain ⟨hnn, hvotes, hfin, ⟨t0, hhead, hnotar⟩, hcol⟩ := hinv
  unfold StreamletNode.receiveProposal
  split
  · dsimp only
    -- the vote cannot reach the quorum threshold (3 ≤ max 1 (2f+1), but
    -- the voter set holds a single id)
    have hvone : voteInsert (s.adoptBlock b).nodeId
        ((s.adoptBlock b).votes b.epoch b.hash) = [s.nodeId] :=
      voteInsert_singleton (hvotes b.epoch b.hash)
    have hthr : ¬ (max 1 (2 * Int.tdiv ((s.adoptBlock b).nNodes - 1) 3 + 1) ≤
        ((voteInsert (s.adoptBlock b).nodeId
          ((s.adoptBlock b).votes b.epoch b.hash)).length : Int)) := by
      rw [hvone]
      have h1 : (1:Int) ≤ Int.tdiv ((s.adoptBlock b).nNodes - 1) 3 := by
        rw [adoptBlock_nNodes, hnn]
        exact one_le_f hn
      intro hle
      simp only [List.length_singleton, Nat.cast_one] at hle
      omega
    rw [castVote_decomp, if_neg hthr]
    -- the block's hash is not notarized (8 colons vs 4 for genesis)
    have hnotarB : s.notarized b.hash = false := by
      cases hnb : s.notarized b.hash with
      | false => rfl
      | true =>
          have := hnotar b.hash hnb
          have h4 := colons_genesis t0
          rw [this, h4] at hb
          omega
    -- name the post-vote state and resolve checkFinalization
    set s2 : StreamletNode := { s.adoptBlock b with votes := (fun e' h' =>
      if e' = b.epoch ∧ h' = b.hash
      then voteInsert (s.adoptBlock b).nodeId
        ((s.adoptBlock b).votes b.epoch b.hash)
      else (s.adoptBlock b).votes e' h') } with hs2
    rcases List.eq_nil_or_concat s.blockchain with hc | ⟨l, lb, hc⟩
    · rw [hc] at hhead
      exact absurd hhead (by simp)
    · have hchain2 : s2.blockchain = l ++ [lb, b] := by
        show (s.adoptBlock b).blockchain = l ++ [lb, b]
        rw [adoptBlock_blockchain, hc, List.concat_eq_append,
          List.append_assoc]
        rfl
      have hnotar2 : s2.notarized b.hash = false := hnotarB
      rw [checkFinalization_pair s2 l lb b hchain2]
      rw [if_neg (by rw [hnotar2, Bool.false_and]; simp)]
      -- establish the invariant for s2
      refine ⟨hnn, ?_, hfin, ⟨t0, ?_, hnotar⟩, ?_⟩
      · intro e h
        have hsv : s2.votes e h = (if e = b.epoch ∧ h = b.hash
            then voteInsert (s.adoptBlock b).nodeId
              ((s.adoptBlock b).votes b.epoch b.hash)
            else (s.adoptBlock b).votes e h) := rfl
        rw [hsv]
        by_cases hk : e = b.epoch ∧ h = b.hash
        · rw [if_pos hk, hvone]
          exact Or.inr rfl
        · rw [if_neg hk]
          exact hvotes e h
      · show (s.adoptBlock b).blockchain.head? = some (genesisBlock t0)
        exact adoptBlock_head s b _ hhead
      · intro b' hb'
        have : b' ∈ s.blockchain ++ [b] := by
          rw [← adoptBlock_blockchain s b]
          exact hb'
        rcases List.mem_append.mp this with h | h
        · exact hcol b' h
        · have : b' = b := by simpa using h
          rw [this]
          omega
  · exact ⟨hnn, hvotes, hfin, ⟨t0, hhead, hnotar⟩, hcol⟩

lemma propose_colons {n : Int} {s : StreamletNode} (hinv : NodeInvC1 n s)
    (e : Int) (txs : List String) (t : Int) :
    8 ≤ colons (s.proposeBlock e txs t).1.hash := by
  obtain ⟨_, _, _, ⟨t0, hhead, _⟩, hcol⟩ := hinv
  cases hlb : s.blockchain.getLast? with
  | none =>
      rw [List.getLast?_eq_none_iff.mp hlb] at hhead
      exact absurd hhead (by simp)
  | some lb =>
      have hmem : lb ∈ s.blockchain := List.mem_of_getLast?_eq_some hlb
      have h4 : 4 ≤ colons lb.hash := hcol lb hmem
      have hfst : (s.proposeBlock e txs t).1 =
          Block.create e lb.hash txs s.nodeId t := by
        simp only [StreamletNode.proposeBlock,
          StreamletNode.findLongestNotarizedChain, hlb]
      rw [hfst]
      have := colons_create_ge e lb.hash txs s.nodeId t
      omega

lemma nodeInvC1_propose {n : Int} {s : StreamletNode} (hn : 4 ≤ n)
    (hinv : NodeInvC1 n s) (e : Int) (txs : List String) (t : Int) :
    NodeInvC1 n (s.proposeBlock e txs t).2 := by
  have h8 := propose_colons hinv e txs t
  have heq : (s.proposeBlock e txs t).2 =
      (s.receiveProposal (s.proposeBlock e txs t).1 s.nodeId).2 := rfl
  rw [heq]
  exact nodeInvC1_receive _ _ hn hinv h8

/-- Protocol-level C1 invariant: every replica satisfies `NodeInvC1`. -/
def ProtoInvC1 (n : Int) (p : StreamletProtocol) : Prop :=
  ∀ s ∈ p.nodes, NodeInvC1 n s

lemma protoInvC1_init (n : Int) (gts : Nat → Int) :
    ProtoInvC1 n (protocolInit n gts) := by
  intro s hs
  simp only [protocolInit, List.mem_map] at hs
  rcases hs with ⟨i, _, rfl⟩
  exact nodeInvC1_init n (Int.ofNat i) (gts i)

lemma deliver_mem {b : Block} {leader : Int} :
    ∀ {i : Nat} {l : List StreamletNode} {x : StreamletNode},
      x ∈ deliver b leader i l →
      ∃ y ∈ l, x = y ∨ x = (y.receiveProposal b leader).2 := by
  intro i l
  induction l generalizing i with
  | nil => intro x hx; exact absurd hx (by simp [deliver])
  | cons a l ih =>
      intro x hx
      rw [deliver] at hx
      rcases List.mem_cons.mp hx with hx | hx
      · refine ⟨a, List.mem_cons_self a l, ?_⟩
        rw [hx]
        split
        · exact Or.inl rfl
        · exact Or.inr rfl
      · rcases ih hx with ⟨y, hy, hxy⟩
        exact ⟨y, List.mem_cons_of_mem a hy, hxy⟩

lemma protoInvC1_runEpoch {n : Int} {p : StreamletProtocol} (hn : 4 ≤ n)
    (hp : ProtoInvC1 n p) (e : Int) (txs : List String) (t : Int) :
    ProtoInvC1 n (runEpoch p e txs t) := by
  unfold runEpoch
  cases hh : p.nodes.head? with
  | none => exact hp
  | some n0 =>
      dsimp only
      cases hl : p.nodes[(n0.getEpochLeader e).toNat]? with
      | none => exact hp
      | some leaderNode =>
          dsimp only
          intro s hs
          have hleader : NodeInvC1 n leaderNode :=
            hp leaderNode (List.getElem?_mem hl)
          have hprop : NodeInvC1 n (leaderNode.proposeBlock e txs t).2 :=
            nodeInvC1_propose hn hleader e txs t
          have hcol8 : 8 ≤ colons (leaderNode.proposeBlock e txs t).1.hash :=
            propose_colons hleader e txs t
          rcases deliver_mem hs with ⟨y, hy, hxy⟩
          have hyInv : NodeInvC1 n y := by
            rcases List.mem_or_eq_of_mem_set hy with hy' | hy'
            · exact hp y hy'
            · rw [hy']
              exact hprop
          rcases hxy with rfl | rfl
          · exact hyInv
          · exact nodeInvC1_receive _ _ hn hyInv hcol8

/-- The conclusion of claim C1: in a protocol state, every replica's
vote set for any (epoch, hash) holds at most that replica's own id (so
its size stays below the quorum threshold, which is at least 3), no hash
other than the replica's own genesis hash is notarized, and the
finalized sequence is empty. -/
def IsolationInv (p : StreamletProtocol) : Prop :=
  ∀ s ∈ p.nodes,
    (∀ e h, s.votes e h = [] ∨ s.votes e h = [s.nodeId]) ∧
    (∀ e h, ((s.votes e h).length : Int) < 3 ∧
      3 ≤ max 1 (2 * Int.tdiv (s.nNodes - 1) 3 + 1)) ∧
    (∃ t0, s.blockchain.head? = some (genesisBlock t0) ∧
      ∀ h, s.notarized h = true → h = (genesisBlock t0).hash) ∧
    s.finalized = []

/-- C1: with `n ≥ 4` replicas, in every state reachable by constructing
the driver and running any sequence of `runEpoch` calls, votes are never
delivered between replicas: each vote set holds at most the replica's
own id, the quorum threshold `2f+1 ≥ 3` is never reached, no hash other
than the replica's own genesis hash ever enters a notarized set, and
every finalized sequence stays empty. -/
theorem runEpoch_isolation (n : Int) (gts : Nat → Int)
    (p : StreamletProtocol) (hn : 4 ≤ n) (hreach : Reach n gts p) :
    IsolationInv p := by
  have hp : ProtoInvC1 n p := by
    induction hreach with
    | init => exact protoInvC1_init n gts
    | step e txs t hr he ih => exact protoInvC1_runEpoch hn ih e txs t
  intro s hs
  obtain ⟨hnn, hvotes, hfin, hgen, _⟩ := hp s hs
  refine ⟨hvotes, ?_, hgen, hfin⟩
  intro e h
  constructor
  · rcases hvotes e h with h' | h' <;> rw [h'] <;> norm_num
  · rw [hnn]
    have hf := one_le_f hn
    refine le_max_of_le_right (by omega)

/-- Witness for C1 at the initial 4-replica protocol state. -/
theorem runEpoch_isolation_witness :
    IsolationInv (protocolInit 4 (fun _ => 0)) :=
  runEpoch_isolation 4 (fun _ => 0) (protocolInit 4 (fun _ => 0))
    (by norm_num) Reach.init

end Streamlet
